import Mathlib

set_option linter.unusedVariables false

/- A shallow embedding of the buckets library: a bolt-backed collection of
   ordered key/value buckets with prefix and range scanners.  Committed
   bucket contents are modelled as association lists sorted in ascending
   byte-lexicographic key order, a cursor as the list suffix it has left to
   visit, and each cursor walk as a fuelled loop returning `none` when the
   fuel runs out (fuel makes the one genuinely non-terminating walk
   expressible).  Byte strings are lists of naturals; a Go nil slice read
   through the cursor is the empty list, while `Option` marks the nil/non-nil
   distinction where the code tests it (`Get` results, cursor exhaustion). -/

abbrev Key := List Nat
abbrev Val := List Nat
abbrev Store := List (Key × Val)

/-- Go bytes.Compare on byte strings, returned as an Ordering
(lt for -1, eq for 0, gt for 1). -/
def bytesCmp : Key → Key → Ordering
  | [], [] => .eq
  | [], _ :: _ => .lt
  | _ :: _, [] => .gt
  | a :: ta, b :: tb =>
    if a < b then .lt else if b < a then .gt else bytesCmp ta tb

/-- Go bytes.HasPrefix s pre: s starts with the byte string pre. -/
def HasPrefix : Key → Key → Bool
  | _, [] => true
  | [], _ :: _ => false
  | a :: ta, b :: tb => a == b && HasPrefix ta tb

/-- The isBefore helper of buckets.go: key != nil && bytes.Compare(key, max) <= 0.
The cursor key is none when the cursor is exhausted (Go nil). -/
def isBefore (key : Option Key) (mx : Key) : Bool :=
  match key with
  | none => false
  | some k => match bytesCmp k mx with | .gt => false | _ => true

/-- Boolean byte-lexicographic comparison a <= b. -/
def bytesLE (a b : Key) : Bool :=
  match bytesCmp a b with | .gt => false | _ => true

/-- The invariant the engine maintains on committed bucket contents:
keys strictly ascending in byte-lexicographic order (hence unique). -/
def Sorted (st : Store) : Prop :=
  st.Pairwise (fun p q => bytesCmp p.1 q.1 = .lt)

instance (st : Store) : Decidable (Sorted st) := by
  unfold Sorted
  infer_instance

/- Basic facts about bytesCmp. -/

theorem bytesCmp_self (a : Key) : bytesCmp a a = .eq := by
  induction a with
  | nil => rfl
  | cons x t ih => simp [bytesCmp, ih]

theorem bytesCmp_eq_iff {a b : Key} : bytesCmp a b = .eq ↔ a = b := by
  induction a generalizing b with
  | nil => cases b <;> simp [bytesCmp]
  | cons x t ih =>
    cases b with
    | nil => simp [bytesCmp]
    | cons y u =>
      by_cases hxy : x < y
      · simp [bytesCmp, hxy]
        omega
      · by_cases hyx : y < x
        · simp [bytesCmp, hxy, hyx]
          omega
        · have hxyeq : x = y := by omega
          simp [bytesCmp, hxy, hyx, hxyeq, ih]

theorem bytesCmp_swap (a b : Key) : (bytesCmp a b).swap = bytesCmp b a := by
  induction a generalizing b with
  | nil => cases b <;> rfl
  | cons x t ih =>
    cases b with
    | nil => rfl
    | cons y u =>
      by_cases hxy : x < y
      · have hyx : ¬ y < x := by omega
        simp [bytesCmp, hxy, hyx, Ordering.swap]
      · by_cases hyx : y < x
        · simp [bytesCmp, hxy, hyx, Ordering.swap]
        · simp [bytesCmp, hxy, hyx, ih]

theorem bytesCmp_lt_trans {a b c : Key} (hab : bytesCmp a b = .lt)
    (hbc : bytesCmp b c = .lt) : bytesCmp a c = .lt := by
  induction a generalizing b c with
  | nil =>
    cases b with
    | nil => exact absurd hab (by simp [bytesCmp])
    | cons y u =>
      cases c with
      | nil => exact absurd hbc (by simp [bytesCmp])
      | cons z w => rfl
  | cons x t ih =>
    cases b with
    | nil => exact absurd hab (by simp [bytesCmp])
    | cons y u =>
      cases c with
      | nil => exact absurd hbc (by simp [bytesCmp])
      | cons z w =>
        by_cases hxy : x < y <;> by_cases hyz : y < z
        · have hxz : x < z := by omega
          simp [bytesCmp, hxz]
        · have hzy : ¬ z < y := by
            intro hzy
            simp [bytesCmp, hyz, hzy] at hbc
          have hyzeq : y = z := by omega
          have hxz : x < z := by omega
          simp [bytesCmp, hxz]
        · have hyx : ¬ y < x := by
            intro hyx
            simp [bytesCmp, hxy, hyx] at hab
          have hxyeq : x = y := by omega
          have hxz : x < z := by omega
          simp [bytesCmp, hxz]
        · have hyx : ¬ y < x := by
            intro hyx
            simp [bytesCmp, hxy, hyx] at hab
          have hzy : ¬ z < y := by
            intro hzy
            simp [bytesCmp, hyz, hzy] at hbc
          have hxyeq : x = y := by omega
          have hyzeq : y = z := by omega
          have hxz : ¬ x < z := by omega
          have hzx : ¬ z < x := by omega
          simp [bytesCmp, hxy, hyx] at hab
          simp [bytesCmp, hyz, hzy] at hbc
          simp [bytesCmp, hxz, hzx]
          exact ih hab hbc

theorem bytesCmp_lt_of_gt {a b : Key} (h : bytesCmp a b = .gt) :
    bytesCmp b a = .lt := by
  have := bytesCmp_swap a b
  rw [h] at this
  exact this.symm

theorem bytesCmp_gt_of_lt {a b : Key} (h : bytesCmp a b = .lt) :
    bytesCmp b a = .gt := by
  have := bytesCmp_swap a b
  rw [h] at this
  exact this.symm

theorem cmpLE_of_lt {a b : Key} (h : bytesCmp a b = .lt) : bytesLE a b = true := by
  simp [bytesLE, h]

theorem cmpLE_refl (a : Key) : bytesLE a a = true := by
  simp [bytesLE, bytesCmp_self]

theorem not_cmpLE_of_gt {a b : Key} (h : bytesCmp a b = .gt) :
    bytesLE a b = false := by
  simp [bytesLE, h]

theorem bytesCmp_ne_gt_of_cmpLE {a b : Key} (h : bytesLE a b = true) :
    bytesCmp a b ≠ .gt := by
  intro hgt
  simp [bytesLE, hgt] at h

theorem cmpLE_lt_trans {a b c : Key} (hab : bytesLE a b = true)
    (hbc : bytesCmp b c = .lt) : bytesLE a c = true := by
  rcases h : bytesCmp a b with _ | _ | _
  · exact cmpLE_of_lt (bytesCmp_lt_trans h hbc)
  · rw [bytesCmp_eq_iff.mp h]
    exact cmpLE_of_lt hbc
  · exact absurd h (bytesCmp_ne_gt_of_cmpLE hab)

theorem cmpLE_trans {a b c : Key} (hab : bytesLE a b = true)
    (hbc : bytesLE b c = true) : bytesLE a c = true := by
  rcases h : bytesCmp b c with _ | _ | _
  · exact cmpLE_lt_trans hab h
  · rw [← bytesCmp_eq_iff.mp h]
    exact hab
  · exact absurd h (bytesCmp_ne_gt_of_cmpLE hbc)

/- Facts connecting HasPrefix with the byte-lexicographic order. -/

theorem HasPrefix_nil_right (s : Key) : HasPrefix s [] = true := by
  cases s <;> rfl

theorem HasPrefix_nil_left {p : Nat} {t : Key} :
    HasPrefix [] (p :: t) = false := rfl

theorem cmpLE_of_HasPrefix {s pre : Key} (h : HasPrefix s pre = true) :
    bytesLE pre s = true := by
  induction pre generalizing s with
  | nil => simp [bytesLE, bytesCmp]; cases s <;> simp [bytesCmp]
  | cons p t ih =>
    cases s with
    | nil => exact absurd h (by simp [HasPrefix])
    | cons a ta =>
      simp only [HasPrefix, Bool.and_eq_true, beq_iff_eq] at h
      obtain ⟨rfl, htl⟩ := h
      have := ih htl
      simp only [bytesLE, bytesCmp] at this ⊢
      simp [this]

theorem bytesCmp_lt_of_HasPrefix_of_not {w y pre : Key}
    (hw : HasPrefix w pre = true) (hy : bytesLE pre y = true)
    (hny : HasPrefix y pre = false) : bytesCmp w y = .lt := by
  induction pre generalizing w y with
  | nil => exact absurd (HasPrefix_nil_right y) (by simp [hny])
  | cons p t ih =>
    cases w with
    | nil => exact absurd hw (by simp [HasPrefix])
    | cons a ta =>
      simp only [HasPrefix, Bool.and_eq_true, beq_iff_eq] at hw
      obtain ⟨rfl, hwtl⟩ := hw
      cases y with
      | nil => exact absurd hy (by simp [bytesLE, bytesCmp])
      | cons c tc =>
        by_cases hac : a < c
        · simp [bytesCmp, hac]
        · by_cases hca : c < a
          · simp [bytesLE, bytesCmp, hac, hca] at hy
          · have hace : a = c := by omega
            subst hace
            simp only [bytesLE, bytesCmp, if_neg hac, if_neg hca] at hy
            simp only [HasPrefix, beq_self_eq_true, Bool.true_and] at hny
            have := ih hwtl (by simpa [bytesLE] using hy) hny
            simp [bytesCmp, hac, hca, this]

/- The storage engine (bolt), modelled on committed state: a bucket's
   contents are an association list in ascending key order.  put inserts or
   replaces keeping the order; get returns none exactly when the key is
   absent (a committed present value is returned non-nil by the engine,
   even when zero-length). -/

/-- Engine-level put of the external ordered store: sorted insert/replace. -/
def enginePut : Store → Key → Val → Store
  | [], k, v => [(k, v)]
  | (k', v') :: rest, k, v =>
    match bytesCmp k k' with
    | .lt => (k, v) :: (k', v') :: rest
    | .eq => (k, v) :: rest
    | .gt => (k', v') :: enginePut rest k v

/-- Engine-level get of the external ordered store: none when absent. -/
def engineGet : Store → Key → Option Val
  | [], _ => none
  | (k', v') :: rest, k =>
    match bytesCmp k k' with
    | .eq => some v'
    | _ => engineGet rest k

theorem engineGet_enginePut_self (st : Store) (k : Key) (v : Val) :
    engineGet (enginePut st k v) k = some v := by
  induction st with
  | nil => simp [enginePut, engineGet, bytesCmp_self]
  | cons p rest ih =>
    obtain ⟨k', v'⟩ := p
    rcases h : bytesCmp k k' with _ | _ | _ <;>
      simp [enginePut, engineGet, h, bytesCmp_self, ih]

theorem engineGet_eq_none_of_not_mem {st : Store} {k : Key}
    (h : ¬ k ∈ st.map Prod.fst) : engineGet st k = none := by
  induction st with
  | nil => rfl
  | cons p rest ih =>
    obtain ⟨k', v'⟩ := p
    simp only [List.map_cons, List.mem_cons] at h
    push_neg at h
    rcases hc : bytesCmp k k' with _ | _ | _
    · simp only [engineGet, hc]
      exact ih h.2
    · exact absurd (bytesCmp_eq_iff.mp hc) h.1
    · simp only [engineGet, hc]
      exact ih h.2

/- The cursor of the external engine.  A cursor mid-walk is the suffix of
   the (sorted) contents it still has in front of it; Seek(k) positions it
   at the first key greater than or equal to k; Next drops one entry; at
   exhaustion the cursor yields a nil key and value, and further Next calls
   keep yielding nil. -/

/-- Cursor position reached by Seek: the suffix whose first key is >= k. -/
def seekTo (st : Store) (k : Key) : Store :=
  st.dropWhile (fun p => bytesCmp p.1 k == Ordering.lt)

/-- The cursor's current key as Go byte functions read it: the nil key at
exhaustion behaves as the empty byte string. -/
def goKey (rest : Store) : Key :=
  match rest with
  | [] => []
  | p :: _ => p.1

/-- The cursor's current key with nil-ness preserved, as isBefore tests it. -/
def curKey (rest : Store) : Option Key :=
  rest.head?.map Prod.fst

/-- The cursor's current value as Go code reads it; nil behaves as empty. -/
def curVal (rest : Store) : Val :=
  match rest with
  | [] => []
  | p :: _ => p.2

namespace Bucket

/-- Bucket.Put: upsert inside one read-write transaction. -/
def Put (st : Store) (k v : List Nat) : Store :=
  enginePut st k v

/-- Bucket.Get: none models the Go nil result for an absent key; a present
value is copied out byte for byte (the copy is the value itself here). -/
def Get (st : Store) (k : Key) : Option Val :=
  engineGet st k

/-- Bucket.PutNX: the source's v, err := bk.Get(k) reassigns the value
parameter v, so when the key is absent the subsequent put stores the
probe's nil result (a zero-length value); the caller's value is unused
from that point on. -/
def PutNX (st : Store) (k _v : List Nat) : Store :=
  match Get st k with
  | some _ => st
  | none => enginePut st k []

/-- Bucket.Insert: one read-write transaction putting each item in order. -/
def Insert (st : Store) (items : List (Key × Val)) : Store :=
  items.foldl (fun acc it => enginePut acc it.1 it.2) st

/-- Bucket.InsertNX: each absence probe calls bk.Get, which opens its own
read-only transaction and therefore observes the state committed before
the enclosing read-write transaction began (st), not the writes made
earlier in the same batch. -/
def InsertNX (st : Store) (items : List (Key × Val)) : Store :=
  items.foldl
    (fun acc it =>
      match engineGet st it.1 with
      | some _ => acc
      | none => enginePut acc it.1 it.2)
    st

/-- The cursor loop of Bucket.MapPrefix, collecting the arguments passed to
the callback; none when the fuel runs out before the loop exits. -/
def MapPrefixLoop (pre : Key) : Nat → Store → Option (List (Key × Val))
  | 0, rest => if HasPrefix (goKey rest) pre then none else some []
  | f + 1, rest =>
    if HasPrefix (goKey rest) pre then
      (MapPrefixLoop pre f rest.tail).map (fun t => (goKey rest, curVal rest) :: t)
    else some []

/-- Bucket.MapPrefix: the source invokes do(k, v) discarding its returned
error, so the walk never stops at a callback error and the operation's own
result is always nil.  The model returns the trace of callback invocations
paired with the operation's returned error; both are independent of f. -/
def MapPrefix (st : Store) (f : Key → Val → Option Nat) (pre : Key) :
    Option (List (Key × Val) × Option Nat) :=
  (MapPrefixLoop pre (st.length + 1) (seekTo st pre)).map (fun t => (t, none))

/-- The cursor loop of Bucket.MapRange. -/
def MapRangeLoop (mx : Key) : Nat → Store → Option (List (Key × Val))
  | 0, rest => if isBefore (curKey rest) mx then none else some []
  | f + 1, rest =>
    if isBefore (curKey rest) mx then
      (MapRangeLoop mx f rest.tail).map (fun t => (goKey rest, curVal rest) :: t)
    else some []

/-- Bucket.MapRange: like MapPrefix, the callback's returned error is
discarded by the source, so trace and result are independent of f. -/
def MapRange (st : Store) (f : Key → Val → Option Nat) (mn mx : Key) :
    Option (List (Key × Val) × Option Nat) :=
  (MapRangeLoop mx (st.length + 1) (seekTo st mn)).map (fun t => (t, none))

end Bucket

namespace PrefixScanner

/-- The cursor loop of PrefixScanner.Keys. -/
def KeysLoop (pre : Key) : Nat → Store → Option (List Key)
  | 0, rest => if HasPrefix (goKey rest) pre then none else some []
  | f + 1, rest =>
    if HasPrefix (goKey rest) pre then
      (KeysLoop pre f rest.tail).map (fun ks => goKey rest :: ks)
    else some []

/-- PrefixScanner.Keys: seek to the first key at or after the prefix and
collect keys while they match. -/
def Keys (st : Store) (pre : Key) : Option (List Key) :=
  KeysLoop pre (st.length + 1) (seekTo st pre)

/-- The cursor loop of PrefixScanner.Count. -/
def CountLoop (pre : Key) : Nat → Store → Option Nat
  | 0, rest => if HasPrefix (goKey rest) pre then none else some 0
  | f + 1, rest =>
    if HasPrefix (goKey rest) pre then
      (CountLoop pre f rest.tail).map (fun n => n + 1)
    else some 0

/-- PrefixScanner.Count: counts the same walk Keys performs. -/
def Count (st : Store) (pre : Key) : Option Nat :=
  CountLoop pre (st.length + 1) (seekTo st pre)

/-- The cursor loop of PrefixScanner.Map: the source advances only the key
(k, _ = c.Next()), so every callback invocation receives v0, the value
read once at the seek position. -/
def MapLoop (pre : Key) (v0 : Val) : Nat → Store → Option (List (Key × Val))
  | 0, rest => if HasPrefix (goKey rest) pre then none else some []
  | f + 1, rest =>
    if HasPrefix (goKey rest) pre then
      (MapLoop pre v0 f rest.tail).map (fun t => (goKey rest, v0) :: t)
    else some []

/-- PrefixScanner.Map: trace of callback invocations and the operation's
returned error (the callback's errors are discarded by the source). -/
def Map (st : Store) (f : Key → Val → Option Nat) (pre : Key) :
    Option (List (Key × Val) × Option Nat) :=
  (MapLoop pre (curVal (seekTo st pre)) (st.length + 1) (seekTo st pre)).map
    (fun t => (t, none))

/-- The cursor loop of PrefixScanner.Items, which pairs each key with its
own value (k, v = c.Next()). -/
def ItemsLoop (pre : Key) : Nat → Store → Option (List (Key × Val))
  | 0, rest => if HasPrefix (goKey rest) pre then none else some []
  | f + 1, rest =>
    if HasPrefix (goKey rest) pre then
      (ItemsLoop pre f rest.tail).map (fun t => (goKey rest, curVal rest) :: t)
    else some []

/-- PrefixScanner.Items: the key/value pairs of the matched run. -/
def Items (st : Store) (pre : Key) : Option (List (Key × Val)) :=
  ItemsLoop pre (st.length + 1) (seekTo st pre)

/-- The walk of PrefixScanner.Keys terminates with result ks: some amount
of fuel completes the cursor loop.  The Go loop terminates exactly when a
fuel bound exists, and then returns this ks. -/
def KeysReturns (st : Store) (pre : Key) (ks : List Key) : Prop :=
  ∃ fuel, KeysLoop pre fuel (seekTo st pre) = some ks

end PrefixScanner

namespace RangeScanner

/-- The cursor loop of RangeScanner.Keys; isBefore's nil guard makes it
stop at cursor exhaustion. -/
def KeysLoop (mx : Key) : Nat → Store → Option (List Key)
  | 0, rest => if isBefore (curKey rest) mx then none else some []
  | f + 1, rest =>
    if isBefore (curKey rest) mx then
      (KeysLoop mx f rest.tail).map (fun ks => goKey rest :: ks)
    else some []

/-- RangeScanner.Keys: seek to min, collect keys while isBefore max. -/
def Keys (st : Store) (mn mx : Key) : Option (List Key) :=
  KeysLoop mx (st.length + 1) (seekTo st mn)

/-- The cursor loop of RangeScanner.Count. -/
def CountLoop (mx : Key) : Nat → Store → Option Nat
  | 0, rest => if isBefore (curKey rest) mx then none else some 0
  | f + 1, rest =>
    if isBefore (curKey rest) mx then
      (CountLoop mx f rest.tail).map (fun n => n + 1)
    else some 0

/-- RangeScanner.Count: counts the same walk Keys performs. -/
def Count (st : Store) (mn mx : Key) : Option Nat :=
  CountLoop mx (st.length + 1) (seekTo st mn)

/-- The cursor loop of RangeScanner.Map, which pairs each key with its own
value (k, v = c.Next()), collecting the arguments passed to the callback. -/
def MapLoop (mx : Key) : Nat → Store → Option (List (Key × Val))
  | 0, rest => if isBefore (curKey rest) mx then none else some []
  | f + 1, rest =>
    if isBefore (curKey rest) mx then
      (MapLoop mx f rest.tail).map (fun t => (goKey rest, curVal rest) :: t)
    else some []

/-- RangeScanner.Map: the source invokes do(k, v) discarding its returned
error, so the walk never stops at a callback error and the operation's own
result is always nil.  The model returns the trace of callback invocations
paired with the operation's returned error; both are independent of f. -/
def Map (st : Store) (f : Key → Val → Option Nat) (mn mx : Key) :
    Option (List (Key × Val) × Option Nat) :=
  (MapLoop mx (st.length + 1) (seekTo st mn)).map (fun t => (t, none))

end RangeScanner

/- The database level: a set of named buckets. -/

abbrev DBState := List (Key × Store)

/-- Errors surfaced by DB.Delete. -/
inductive DBErr
  | bucketNotFound
deriving DecidableEq

/-- Lookup of a named bucket in the database. -/
def lookupBucket : DBState → Key → Option Store
  | [], _ => none
  | (n, b) :: rest, name => if n = name then some b else lookupBucket rest name

/-- Removal of a named bucket and everything in it. -/
def removeBucket (db : DBState) (name : Key) : DBState :=
  db.filter (fun p => p.1 != name)

namespace DB

/-- Modelled from the spec: bolt's Tx.DeleteBucket (the engine's
deleteCollection, outside this repository) fails when no bucket of that
name exists and otherwise removes the named bucket together with every
item in it (spec sections 4.4 and 6).  DB.Delete runs it inside one
read-write transaction and returns its error. -/
def Delete (db : DBState) (name : Key) : Except DBErr DBState :=
  match lookupBucket db name with
  | none => .error .bucketNotFound
  | some _ => .ok (removeBucket db name)

end DB

theorem lookupBucket_removeBucket (db : DBState) (name : Key) :
    lookupBucket (removeBucket db name) name = none := by
  induction db with
  | nil => rfl
  | cons p rest ih =>
    by_cases h : p.1 = name
    · simpa [removeBucket, List.filter_cons, h] using ih
    · obtain ⟨n, b⟩ := p
      simp only at h
      simpa [removeBucket, List.filter_cons, h, lookupBucket] using ih

/- Characterization of the cursor walks. -/

theorem bytesLE_eq_false_iff {a b : Key} :
    bytesLE a b = false ↔ bytesCmp a b = .gt := by
  rcases h : bytesCmp a b with _ | _ | _ <;> simp [bytesLE, h]

theorem seekTo_length_le (st : Store) (k : Key) :
    (seekTo st k).length ≤ st.length := by
  induction st with
  | nil => exact Nat.le_refl 0
  | cons p t ih =>
    by_cases h : bytesCmp p.1 k = Ordering.lt
    · simp only [seekTo, List.dropWhile_cons, h] at ih ⊢
      simp only [beq_self_eq_true, if_true, List.length_cons]
      exact Nat.le_succ_of_le ih
    · have hb : (bytesCmp p.1 k == Ordering.lt) = false := by
        rcases hc : bytesCmp p.1 k with _ | _ | _
        · exact absurd hc h
        · rfl
        · rfl
      simp only [seekTo, List.dropWhile_cons, hb, Bool.false_eq_true, if_false]
      exact Nat.le_refl _

theorem psKeysLoop_eq_takeWhile {pre : Key} (hp : pre ≠ []) :
    ∀ rest fuel, rest.length < fuel →
      PrefixScanner.KeysLoop pre fuel rest =
        some ((rest.takeWhile (fun p => HasPrefix p.1 pre)).map Prod.fst) := by
  obtain ⟨p0, t0, rfl⟩ := List.exists_cons_of_ne_nil hp
  intro rest
  induction rest with
  | nil =>
    intro fuel hf
    cases fuel with
    | zero => omega
    | succ f => simp [PrefixScanner.KeysLoop, goKey, HasPrefix]
  | cons q t ih =>
    intro fuel hf
    cases fuel with
    | zero => omega
    | succ f =>
      by_cases h : HasPrefix q.1 (p0 :: t0) = true
      · have := ih f (by simpa using Nat.lt_of_succ_lt_succ hf)
        simp [PrefixScanner.KeysLoop, goKey, h, this, List.takeWhile_cons]
      · simp only [Bool.not_eq_true] at h
        simp [PrefixScanner.KeysLoop, goKey, h, List.takeWhile_cons]

theorem psItemsLoop_eq_takeWhile {pre : Key} (hp : pre ≠ []) :
    ∀ rest fuel, rest.length < fuel →
      PrefixScanner.ItemsLoop pre fuel rest =
        some (rest.takeWhile (fun p => HasPrefix p.1 pre)) := by
  obtain ⟨p0, t0, rfl⟩ := List.exists_cons_of_ne_nil hp
  intro rest
  induction rest with
  | nil =>
    intro fuel hf
    cases fuel with
    | zero => omega
    | succ f => simp [PrefixScanner.ItemsLoop, goKey, HasPrefix]
  | cons q t ih =>
    intro fuel hf
    cases fuel with
    | zero => omega
    | succ f =>
      by_cases h : HasPrefix q.1 (p0 :: t0) = true
      · have := ih f (by simpa using Nat.lt_of_succ_lt_succ hf)
        simp [PrefixScanner.ItemsLoop, goKey, curVal, h, this, List.takeWhile_cons]
      · simp only [Bool.not_eq_true] at h
        simp [PrefixScanner.ItemsLoop, goKey, h, List.takeWhile_cons]

theorem psMapLoop_eq_takeWhile {pre : Key} (hp : pre ≠ []) (v0 : Val) :
    ∀ rest fuel, rest.length < fuel →
      PrefixScanner.MapLoop pre v0 fuel rest =
        some ((rest.takeWhile (fun p => HasPrefix p.1 pre)).map
          (fun p => (p.1, v0))) := by
  obtain ⟨p0, t0, rfl⟩ := List.exists_cons_of_ne_nil hp
  intro rest
  induction rest with
  | nil =>
    intro fuel hf
    cases fuel with
    | zero => omega
    | succ f => simp [PrefixScanner.MapLoop, goKey, HasPrefix]
  | cons q t ih =>
    intro fuel hf
    cases fuel with
    | zero => omega
    | succ f =>
      by_cases h : HasPrefix q.1 (p0 :: t0) = true
      · have := ih f (by simpa using Nat.lt_of_succ_lt_succ hf)
        simp [PrefixScanner.MapLoop, goKey, h, this, List.takeWhile_cons]
      · simp only [Bool.not_eq_true] at h
        simp [PrefixScanner.MapLoop, goKey, h, List.takeWhile_cons]

theorem bkMapPrefixLoop_eq_takeWhile {pre : Key} (hp : pre ≠ []) :
    ∀ rest fuel, rest.length < fuel →
      Bucket.MapPrefixLoop pre fuel rest =
        some (rest.takeWhile (fun p => HasPrefix p.1 pre)) := by
  obtain ⟨p0, t0, rfl⟩ := List.exists_cons_of_ne_nil hp
  intro rest
  induction rest with
  | nil =>
    intro fuel hf
    cases fuel with
    | zero => omega
    | succ f => simp [Bucket.MapPrefixLoop, goKey, HasPrefix]
  | cons q t ih =>
    intro fuel hf
    cases fuel with
    | zero => omega
    | succ f =>
      by_cases h : HasPrefix q.1 (p0 :: t0) = true
      · have := ih f (by simpa using Nat.lt_of_succ_lt_succ hf)
        simp [Bucket.MapPrefixLoop, goKey, curVal, h, this, List.takeWhile_cons]
      · simp only [Bool.not_eq_true] at h
        simp [Bucket.MapPrefixLoop, goKey, h, List.takeWhile_cons]

theorem rsKeysLoop_eq_takeWhile (mx : Key) :
    ∀ rest fuel, rest.length < fuel →
      RangeScanner.KeysLoop mx fuel rest =
        some ((rest.takeWhile (fun p => bytesLE p.1 mx)).map Prod.fst) := by
  intro rest
  induction rest with
  | nil =>
    intro fuel hf
    cases fuel with
    | zero => omega
    | succ f => simp [RangeScanner.KeysLoop, curKey, isBefore]
  | cons q t ih =>
    intro fuel hf
    cases fuel with
    | zero => omega
    | succ f =>
      have hcond : isBefore (curKey (q :: t)) mx = bytesLE q.1 mx := by
        simp [isBefore, curKey, bytesLE]
      by_cases h : bytesLE q.1 mx = true
      · have := ih f (by simpa using Nat.lt_of_succ_lt_succ hf)
        simp [RangeScanner.KeysLoop, hcond, goKey, h, this, List.takeWhile_cons]
      · simp only [Bool.not_eq_true] at h
        simp [RangeScanner.KeysLoop, hcond, h, List.takeWhile_cons]

theorem bkMapRangeLoop_eq_takeWhile (mx : Key) :
    ∀ rest fuel, rest.length < fuel →
      Bucket.MapRangeLoop mx fuel rest =
        some (rest.takeWhile (fun p => bytesLE p.1 mx)) := by
  intro rest
  induction rest with
  | nil =>
    intro fuel hf
    cases fuel with
    | zero => omega
    | succ f => simp [Bucket.MapRangeLoop, curKey, isBefore]
  | cons q t ih =>
    intro fuel hf
    cases fuel with
    | zero => omega
    | succ f =>
      have hcond : isBefore (curKey (q :: t)) mx = bytesLE q.1 mx := by
        simp [isBefore, curKey, bytesLE]
      by_cases h : bytesLE q.1 mx = true
      · have := ih f (by simpa using Nat.lt_of_succ_lt_succ hf)
        simp [Bucket.MapRangeLoop, hcond, goKey, curVal, h, this, List.takeWhile_cons]
      · simp only [Bool.not_eq_true] at h
        simp [Bucket.MapRangeLoop, hcond, h, List.takeWhile_cons]

theorem psCountLoop_eq_keysLoop (pre : Key) :
    ∀ fuel rest, PrefixScanner.CountLoop pre fuel rest =
      (PrefixScanner.KeysLoop pre fuel rest).map List.length := by
  intro fuel
  induction fuel with
  | zero =>
    intro rest
    by_cases h : HasPrefix (goKey rest) pre = true <;>
      simp [PrefixScanner.CountLoop, PrefixScanner.KeysLoop, h]
  | succ f ih =>
    intro rest
    by_cases h : HasPrefix (goKey rest) pre = true
    · simp only [PrefixScanner.CountLoop, PrefixScanner.KeysLoop, h, if_true, ih]
      cases PrefixScanner.KeysLoop pre f rest.tail <;> simp
    · simp [PrefixScanner.CountLoop, PrefixScanner.KeysLoop, h]

theorem rsCountLoop_eq_keysLoop (mx : Key) :
    ∀ fuel rest, RangeScanner.CountLoop mx fuel rest =
      (RangeScanner.KeysLoop mx fuel rest).map List.length := by
  intro fuel
  induction fuel with
  | zero =>
    intro rest
    by_cases h : isBefore (curKey rest) mx = true <;>
      simp [RangeScanner.CountLoop, RangeScanner.KeysLoop, h]
  | succ f ih =>
    intro rest
    by_cases h : isBefore (curKey rest) mx = true
    · simp only [RangeScanner.CountLoop, RangeScanner.KeysLoop, h, if_true, ih]
      cases RangeScanner.KeysLoop mx f rest.tail <;> simp
    · simp [RangeScanner.CountLoop, RangeScanner.KeysLoop, h]

theorem psKeysLoop_empty_pre_eq_none :
    ∀ fuel rest, PrefixScanner.KeysLoop [] fuel rest = none := by
  intro fuel
  induction fuel with
  | zero => intro rest; simp [PrefixScanner.KeysLoop, HasPrefix_nil_right]
  | succ f ih => intro rest; simp [PrefixScanner.KeysLoop, HasPrefix_nil_right, ih]

theorem rsMapLoop_eq_takeWhile (mx : Key) :
    ∀ rest fuel, rest.length < fuel →
      RangeScanner.MapLoop mx fuel rest =
        some (rest.takeWhile (fun p => bytesLE p.1 mx)) := by
  intro rest
  induction rest with
  | nil =>
    intro fuel hf
    cases fuel with
    | zero => omega
    | succ f => simp [RangeScanner.MapLoop, curKey, isBefore]
  | cons q t ih =>
    intro fuel hf
    cases fuel with
    | zero => omega
    | succ f =>
      have hcond : isBefore (curKey (q :: t)) mx = bytesLE q.1 mx := by
        simp [isBefore, curKey, bytesLE]
      by_cases h : bytesLE q.1 mx = true
      · have := ih f (by simpa using Nat.lt_of_succ_lt_succ hf)
        simp [RangeScanner.MapLoop, hcond, goKey, curVal, h, this,
          List.takeWhile_cons]
      · simp only [Bool.not_eq_true] at h
        simp [RangeScanner.MapLoop, hcond, h, List.takeWhile_cons]

theorem bkMapPrefixLoop_empty_pre_eq_none :
    ∀ fuel rest, Bucket.MapPrefixLoop [] fuel rest = none := by
  intro fuel
  induction fuel with
  | zero => intro rest; simp [Bucket.MapPrefixLoop, HasPrefix_nil_right]
  | succ f ih => intro rest; simp [Bucket.MapPrefixLoop, HasPrefix_nil_right, ih]

theorem psMapLoop_empty_pre_eq_none (v0 : Val) :
    ∀ fuel rest, PrefixScanner.MapLoop [] v0 fuel rest = none := by
  intro fuel
  induction fuel with
  | zero => intro rest; simp [PrefixScanner.MapLoop, HasPrefix_nil_right]
  | succ f ih => intro rest; simp [PrefixScanner.MapLoop, HasPrefix_nil_right, ih]

/- On a sorted store, the seek-then-scan walk visits exactly the filter of
   the contents: the dropped part all fails the match, the scanned run is
   the matched set, and everything after the first mismatch is larger than
   every match. -/

theorem takeWhile_hp_eq_filter_of_all_ge {pre : Key} :
    ∀ l : Store, l.Pairwise (fun p q => bytesCmp p.1 q.1 = .lt) →
      (∀ p ∈ l, bytesLE pre p.1 = true) →
      l.takeWhile (fun p => HasPrefix p.1 pre) =
        l.filter (fun p => HasPrefix p.1 pre) := by
  intro l
  induction l with
  | nil => intro _ _; rfl
  | cons x t ih =>
    intro hs hge
    rcases List.pairwise_cons.mp hs with ⟨hx, ht⟩
    by_cases h : HasPrefix x.1 pre = true
    · rw [List.takeWhile_cons, List.filter_cons, if_pos (by simp [h]),
        if_pos (by simp [h])]
      exact congrArg _ (ih ht (fun p hp => hge p (List.mem_cons_of_mem _ hp)))
    · simp only [Bool.not_eq_true] at h
      rw [List.takeWhile_cons, List.filter_cons, if_neg (by simp [h]),
        if_neg (by simp [h])]
      symm
      rw [List.filter_eq_nil_iff]
      intro z hz
      simp only [Bool.not_eq_true]
      by_contra hzp
      simp only [Bool.not_eq_false] at hzp
      have hzx : bytesCmp z.1 x.1 = .lt :=
        bytesCmp_lt_of_HasPrefix_of_not hzp (hge x (List.mem_cons_self x t)) h
      have hxz : bytesCmp z.1 x.1 = .gt := bytesCmp_gt_of_lt (hx z hz)
      rw [hzx] at hxz
      exact Ordering.noConfusion hxz

theorem seekTo_takeWhile_hp_eq_filter {st : Store} {pre : Key}
    (hs : Sorted st) :
    (seekTo st pre).takeWhile (fun p => HasPrefix p.1 pre) =
      st.filter (fun p => HasPrefix p.1 pre) := by
  induction st with
  | nil => rfl
  | cons x t ih =>
    rcases List.pairwise_cons.mp hs with ⟨hx, ht⟩
    by_cases h : bytesCmp x.1 pre = Ordering.lt
    · have hb : (bytesCmp x.1 pre == Ordering.lt) = true := by
        rw [h]
        decide
      have hnp : HasPrefix x.1 pre = false := by
        by_contra hc
        simp only [Bool.not_eq_false] at hc
        exact bytesCmp_ne_gt_of_cmpLE (cmpLE_of_HasPrefix hc)
          (bytesCmp_gt_of_lt h)
      simp only [seekTo, List.dropWhile_cons, hb, if_true]
      rw [List.filter_cons, if_neg (by simp [hnp])]
      exact ih ht
    · have hb : (bytesCmp x.1 pre == Ordering.lt) = false := by
        rcases hc : bytesCmp x.1 pre with _ | _ | _
        · exact absurd hc h
        · rfl
        · rfl
      have hgex : bytesLE pre x.1 = true := by
        rcases hc : bytesCmp x.1 pre with _ | _ | _
        · exact absurd hc h
        · rw [bytesCmp_eq_iff.mp hc]
          exact cmpLE_refl pre
        · exact cmpLE_of_lt (bytesCmp_lt_of_gt hc)
      simp only [seekTo, List.dropWhile_cons, hb, Bool.false_eq_true, if_false]
      apply takeWhile_hp_eq_filter_of_all_ge (x :: t) hs
      intro p hp
      rcases List.mem_cons.mp hp with rfl | hpt
      · exact hgex
      · exact cmpLE_lt_trans hgex (hx p hpt)

theorem takeWhile_le_eq_filter_of_all_ge {mn mx : Key} :
    ∀ l : Store, l.Pairwise (fun p q => bytesCmp p.1 q.1 = .lt) →
      (∀ p ∈ l, bytesLE mn p.1 = true) →
      l.takeWhile (fun p => bytesLE p.1 mx) =
        l.filter (fun p => bytesLE mn p.1 && bytesLE p.1 mx) := by
  intro l
  induction l with
  | nil => intro _ _; rfl
  | cons x t ih =>
    intro hs hge
    rcases List.pairwise_cons.mp hs with ⟨hx, ht⟩
    by_cases h : bytesLE x.1 mx = true
    · rw [List.takeWhile_cons, List.filter_cons, if_pos (by simp [h]),
        if_pos (by simp [h, hge x (List.mem_cons_self x t)])]
      exact congrArg _ (ih ht (fun p hp => hge p (List.mem_cons_of_mem _ hp)))
    · simp only [Bool.not_eq_true] at h
      rw [List.takeWhile_cons, List.filter_cons, if_neg (by simp [h]),
        if_neg (by simp [h])]
      symm
      rw [List.filter_eq_nil_iff]
      intro z hz
      have hxmx : bytesCmp x.1 mx = .gt := bytesLE_eq_false_iff.mp h
      have hmz : bytesCmp mx z.1 = .lt :=
        bytesCmp_lt_trans (bytesCmp_lt_of_gt hxmx) (hx z hz)
      have hzmx : bytesLE z.1 mx = false :=
        bytesLE_eq_false_iff.mpr (bytesCmp_gt_of_lt hmz)
      simp [hzmx]

theorem seekTo_takeWhile_le_eq_filter {st : Store} {mn mx : Key}
    (hs : Sorted st) :
    (seekTo st mn).takeWhile (fun p => bytesLE p.1 mx) =
      st.filter (fun p => bytesLE mn p.1 && bytesLE p.1 mx) := by
  induction st with
  | nil => rfl
  | cons x t ih =>
    rcases List.pairwise_cons.mp hs with ⟨hx, ht⟩
    by_cases h : bytesCmp x.1 mn = Ordering.lt
    · have hb : (bytesCmp x.1 mn == Ordering.lt) = true := by
        rw [h]
        decide
      have hnm : bytesLE mn x.1 = false :=
        bytesLE_eq_false_iff.mpr (bytesCmp_gt_of_lt h)
      simp only [seekTo, List.dropWhile_cons, hb, if_true]
      rw [List.filter_cons, if_neg (by simp [hnm])]
      exact ih ht
    · have hb : (bytesCmp x.1 mn == Ordering.lt) = false := by
        rcases hc : bytesCmp x.1 mn with _ | _ | _
        · exact absurd hc h
        · rfl
        · rfl
      have hgex : bytesLE mn x.1 = true := by
        rcases hc : bytesCmp x.1 mn with _ | _ | _
        · exact absurd hc h
        · rw [bytesCmp_eq_iff.mp hc]
          exact cmpLE_refl mn
        · exact cmpLE_of_lt (bytesCmp_lt_of_gt hc)
      simp only [seekTo, List.dropWhile_cons, hb, Bool.false_eq_true, if_false]
      apply takeWhile_le_eq_filter_of_all_ge (x :: t) hs
      intro p hp
      rcases List.mem_cons.mp hp with rfl | hpt
      · exact hgex
      · exact cmpLE_lt_trans hgex (hx p hpt)

theorem map_fst_filter (q : Key → Bool) :
    ∀ l : Store,
      (l.filter (fun p => q p.1)).map Prod.fst = (l.map Prod.fst).filter q := by
  intro l
  induction l with
  | nil => rfl
  | cons x t ih =>
    by_cases h : q x.1 = true <;>
      simp [List.filter_cons, h, ih]

theorem sorted_keys_filter {st : Store} (hs : Sorted st) (q : Key → Bool) :
    ((st.map Prod.fst).filter q).Pairwise (fun a b => bytesCmp a b = .lt) := by
  have hm : (st.map Prod.fst).Pairwise (fun a b => bytesCmp a b = .lt) :=
    List.pairwise_map.mpr hs
  exact List.Pairwise.sublist (List.filter_sublist _) hm

/- Top-level equations for the scan operations on a sorted store. -/

theorem psKeys_eq_filter {st : Store} {pre : Key} (hs : Sorted st)
    (hp : pre ≠ []) :
    PrefixScanner.Keys st pre =
      some ((st.map Prod.fst).filter (fun k => HasPrefix k pre)) := by
  unfold PrefixScanner.Keys
  rw [psKeysLoop_eq_takeWhile hp (seekTo st pre) (st.length + 1)
      (Nat.lt_succ_of_le (seekTo_length_le st pre)),
    seekTo_takeWhile_hp_eq_filter hs]
  exact congrArg some (map_fst_filter (fun k => HasPrefix k pre) st)

theorem rsKeys_eq_filter {st : Store} {mn mx : Key} (hs : Sorted st) :
    RangeScanner.Keys st mn mx =
      some ((st.map Prod.fst).filter (fun k => bytesLE mn k && bytesLE k mx)) := by
  unfold RangeScanner.Keys
  rw [rsKeysLoop_eq_takeWhile mx (seekTo st mn) (st.length + 1)
      (Nat.lt_succ_of_le (seekTo_length_le st mn)),
    seekTo_takeWhile_le_eq_filter hs]
  exact congrArg some (map_fst_filter (fun k => bytesLE mn k && bytesLE k mx) st)

/- Concrete stores and callbacks used by the witnesses and
   counterexamples. -/

/-- The specification's scenario bucket for prefix scans: keys f/, fo/,
foo/, foo/bar/, foo/bar/baz/, food/, goo/, good/ in ascending byte order,
with distinct tag values. -/
def pathsStore : Store :=
  [([102, 47], [1]),
   ([102, 111, 47], [2]),
   ([102, 111, 111, 47], [3]),
   ([102, 111, 111, 47, 98, 97, 114, 47], [4]),
   ([102, 111, 111, 47, 98, 97, 114, 47, 98, 97, 122, 47], [5]),
   ([102, 111, 111, 100, 47], [6]),
   ([103, 111, 111, 47], [7]),
   ([103, 111, 111, 100, 47], [8])]

/-- A callback that reports error 0 on the key "a" ([97]) and no error on
any other pair. -/
def cexDo : Key → Val → Option Nat :=
  fun k _ => if k = [97] then some 0 else none

/- C1 -/

/-- C1: on an empty bucket, PutNX("A", "alpha") does not perform the same
upsert as Put: the reassigned probe result is stored instead, so the
bucket holds a zero-length value under "A" and the subsequent Get returns
that empty value, not "alpha". -/
theorem putNX_absent_stores_empty :
    Bucket.PutNX [] [65] [97, 108, 112, 104, 97] = [([65], [])] ∧
    Bucket.Get (Bucket.PutNX [] [65] [97, 108, 112, 104, 97]) [65] =
      some [] ∧
    some ([] : Val) ≠ some [97, 108, 112, 104, 97] := by
  exact ⟨rfl, rfl, by decide⟩

/- C2 -/

/-- C2 fails at the empty prefix: on the scenario bucket, the cursor walk
of PrefixScanner("").Keys() never terminates, because the exhausted
cursor's nil key still satisfies bytes.HasPrefix for the empty prefix; in
particular the walk never returns the full key list the claim requires. -/
theorem psKeys_empty_pre_cex :
    ¬ PrefixScanner.KeysReturns pathsStore [] (pathsStore.map Prod.fst) := by
  rintro ⟨fuel, h⟩
  rw [psKeysLoop_empty_pre_eq_none fuel (seekTo pathsStore [])] at h
  exact Option.noConfusion h

/-- C2 (amended): for every sorted bucket and every nonempty prefix P,
PrefixScanner(P).Keys() returns exactly the keys of the bucket that start
with P, in ascending byte-lexicographic order with no duplicates and no
omissions; for the empty prefix the walk diverges instead. -/
theorem psKeys_exact (st : Store) (pre : Key) (hs : Sorted st)
    (hp : pre ≠ []) :
    PrefixScanner.Keys st pre =
      some ((st.map Prod.fst).filter (fun k => HasPrefix k pre)) ∧
    ((st.map Prod.fst).filter (fun k => HasPrefix k pre)).Pairwise
      (fun a b => bytesCmp a b = .lt) :=
  ⟨psKeys_eq_filter hs hp, sorted_keys_filter hs _⟩

/-- Witness for C2's amended claim: on the scenario bucket, scanning the
prefix "foo/" yields exactly [foo/, foo/bar/, foo/bar/baz/]. -/
theorem psKeys_exact_witness :
    Sorted pathsStore ∧
    PrefixScanner.Keys pathsStore [102, 111, 111, 47] =
      some [[102, 111, 111, 47],
        [102, 111, 111, 47, 98, 97, 114, 47],
        [102, 111, 111, 47, 98, 97, 114, 47, 98, 97, 122, 47]] :=
  ⟨by decide,
   ((psKeys_exact pathsStore [102, 111, 111, 47] (by decide)
      (by decide)).1).trans (by decide)⟩

/- C3 -/

/-- C3: for every sorted bucket, RangeScanner(min, max).Keys() returns
exactly the keys in the inclusive byte-lexicographic interval
[min, max], in ascending order; when min > max the result is the empty
sequence, and no error is reported in any case. -/
theorem rsKeys_exact (st : Store) (mn mx : Key) (hs : Sorted st) :
    RangeScanner.Keys st mn mx =
      some ((st.map Prod.fst).filter (fun k => bytesLE mn k && bytesLE k mx)) ∧
    ((st.map Prod.fst).filter (fun k => bytesLE mn k && bytesLE k mx)).Pairwise
      (fun a b => bytesCmp a b = .lt) ∧
    (bytesCmp mn mx = .gt → RangeScanner.Keys st mn mx = some []) := by
  refine ⟨rsKeys_eq_filter hs, sorted_keys_filter hs _, ?_⟩
  intro hgt
  rw [rsKeys_eq_filter hs]
  congr 1
  rw [List.filter_eq_nil_iff]
  intro k hk
  simp only [Bool.and_eq_true, not_and]
  intro h1 h2
  exact absurd hgt (bytesCmp_ne_gt_of_cmpLE (cmpLE_trans h1 h2))

/-- Witness for C3 at the bucket with keys "1", "3", "5": the range
["2", "4"] yields exactly ["3"], and the empty interval ["9", "0"] yields
the empty sequence. -/
theorem rsKeys_exact_witness :
    RangeScanner.Keys [([49], [1]), ([51], [2]), ([53], [3])] [50] [52] =
      some [[51]] ∧
    RangeScanner.Keys [([49], [1]), ([51], [2]), ([53], [3])] [57] [48] =
      some [] :=
  ⟨((rsKeys_exact [([49], [1]), ([51], [2]), ([53], [3])] [50] [52]
      (by decide)).1).trans (by decide),
   (rsKeys_exact [([49], [1]), ([51], [2]), ([53], [3])] [57] [48]
      (by decide)).2.2 (by decide)⟩

/- C4 -/

/-- C4: for every bucket state, key k and value v, Put(k, v) followed by
Get(k) returns exactly v, byte for byte. -/
theorem put_get_roundtrip (st : Store) (k v : List Nat) :
    Bucket.Get (Bucket.Put st k v) k = some v :=
  engineGet_enginePut_self st k v

/- C5 -/

/-- C5 fails: on the bucket with keys "a" and "ab" and prefix "a", the
callback cexDo reports error 0 on the first visited pair (a, x), yet
MapPrefix still visits the second pair and returns no error, instead of
stopping at (a, x) and propagating error 0 as the claim requires. -/
theorem mapWalk_error_discarded_cex :
    Bucket.MapPrefix [([97], [120]), ([97, 98], [121])] cexDo [97] =
      some ([([97], [120]), ([97, 98], [121])], none) ∧
    cexDo [97] [120] = some 0 ∧
    some (([([97], [120]), ([97, 98], [121])], none) :
        List (Key × Val) × Option Nat) ≠
      some ([([97], [120])], some 0) := by
  exact ⟨rfl, rfl, by decide⟩

/-- C5 (amended): the caller-supplied callback's returned errors are
discarded by every prefix or range walk - Bucket.MapPrefix,
Bucket.MapRange, PrefixScanner.Map and RangeScanner.Map (the scanners
expose no separate ForEach): the walk neither stops early at a callback
error nor propagates it.  Whenever the walk terminates it has invoked the
callback once per matched item and the operation returns nil error; the
Bucket walks and RangeScanner.Map pass each item's own key and value,
while PrefixScanner.Map pairs every matched key with the value read at
the seek position (the C6 bug).  The range walks always terminate; the
prefix walks terminate for every nonempty prefix, and at the empty
prefix they never return: no amount of fuel completes their loops. -/
theorem mapWalk_visits_all_returns_nil (st : Store)
    (f : Key → Val → Option Nat) (pre mn mx : Key) (hs : Sorted st)
    (hp : pre ≠ []) :
    Bucket.MapPrefix st f pre =
      some (st.filter (fun p => HasPrefix p.1 pre), none) ∧
    Bucket.MapRange st f mn mx =
      some (st.filter (fun p => bytesLE mn p.1 && bytesLE p.1 mx), none) ∧
    PrefixScanner.Map st f pre =
      some ((st.filter (fun p => HasPrefix p.1 pre)).map
        (fun p => (p.1, curVal (seekTo st pre))), none) ∧
    RangeScanner.Map st f mn mx =
      some (st.filter (fun p => bytesLE mn p.1 && bytesLE p.1 mx), none) ∧
    (∀ fuel rest, Bucket.MapPrefixLoop [] fuel rest = none) ∧
    (∀ v0 fuel rest, PrefixScanner.MapLoop [] v0 fuel rest = none) := by
  refine ⟨?_, ?_, ?_, ?_, bkMapPrefixLoop_empty_pre_eq_none,
    psMapLoop_empty_pre_eq_none⟩
  · unfold Bucket.MapPrefix
    rw [bkMapPrefixLoop_eq_takeWhile hp (seekTo st pre) (st.length + 1)
        (Nat.lt_succ_of_le (seekTo_length_le st pre)),
      seekTo_takeWhile_hp_eq_filter hs]
    rfl
  · unfold Bucket.MapRange
    rw [bkMapRangeLoop_eq_takeWhile mx (seekTo st mn) (st.length + 1)
        (Nat.lt_succ_of_le (seekTo_length_le st mn)),
      seekTo_takeWhile_le_eq_filter hs]
    rfl
  · unfold PrefixScanner.Map
    rw [psMapLoop_eq_takeWhile hp (curVal (seekTo st pre)) (seekTo st pre)
        (st.length + 1) (Nat.lt_succ_of_le (seekTo_length_le st pre)),
      seekTo_takeWhile_hp_eq_filter hs]
    rfl
  · unfold RangeScanner.Map
    rw [rsMapLoop_eq_takeWhile mx (seekTo st mn) (st.length + 1)
        (Nat.lt_succ_of_le (seekTo_length_le st mn)),
      seekTo_takeWhile_le_eq_filter hs]
    rfl

/-- Witness for C5's amended claim: on the bucket {"a" -> x, "b" -> y}
with the callback cexDo, which reports error 0 on the key "a", all four
walks still visit every matched item and return no error: MapPrefix and
PrefixScanner.Map over prefix "a" visit their one matching pair, and
MapRange and RangeScanner.Map over ["a", "b"] visit both pairs. -/
theorem mapWalk_visits_all_returns_nil_witness :
    Bucket.MapPrefix [([97], [120]), ([98], [121])] cexDo [97] =
      some ([([97], [120])], none) ∧
    Bucket.MapRange [([97], [120]), ([98], [121])] cexDo [97] [98] =
      some ([([97], [120]), ([98], [121])], none) ∧
    PrefixScanner.Map [([97], [120]), ([98], [121])] cexDo [97] =
      some ([([97], [120])], none) ∧
    RangeScanner.Map [([97], [120]), ([98], [121])] cexDo [97] [98] =
      some ([([97], [120]), ([98], [121])], none) :=
  ⟨((mapWalk_visits_all_returns_nil [([97], [120]), ([98], [121])] cexDo
      [97] [97] [98] (by decide) (by decide)).1).trans (by decide),
   ((mapWalk_visits_all_returns_nil [([97], [120]), ([98], [121])] cexDo
      [97] [97] [98] (by decide) (by decide)).2.1).trans (by decide),
   ((mapWalk_visits_all_returns_nil [([97], [120]), ([98], [121])] cexDo
      [97] [97] [98] (by decide) (by decide)).2.2.1).trans (by decide),
   ((mapWalk_visits_all_returns_nil [([97], [120]), ([98], [121])] cexDo
      [97] [97] [98] (by decide) (by decide)).2.2.2.1).trans (by decide)⟩

/- C6 -/

/-- C6: PrefixScanner.Map pairs every matched key with the value read at
the seek position, because the loop advances with k, _ = c.Next() and
never refreshes v: on the bucket {a1 -> x, a2 -> y} with prefix "a" the
callback's second invocation receives (a2, x), while Items pairs a2 with
its own value y. -/
theorem psMap_stale_value :
    PrefixScanner.Map [([97, 49], [120]), ([97, 50], [121])]
        (fun _ _ => none) [97] =
      some ([([97, 49], [120]), ([97, 50], [120])], none) ∧
    PrefixScanner.Items [([97, 49], [120]), ([97, 50], [121])] [97] =
      some [([97, 49], [120]), ([97, 50], [121])] ∧
    (([97, 50], [120]) : Key × Val) ≠ ([97, 50], [121]) := by
  exact ⟨rfl, rfl, by decide⟩

/- C7 -/

/-- C7: for every bucket state and scan parameters, the prefix scanner's
Count equals the length of the list its Keys returns, and likewise for
the range scanner (the two walks proceed in lockstep, including the
diverging empty-prefix case, where both fail to return). -/
theorem scanner_count_eq_keys_length (st : Store) (pre mn mx : Key) :
    PrefixScanner.Count st pre =
      (PrefixScanner.Keys st pre).map List.length ∧
    RangeScanner.Count st mn mx =
      (RangeScanner.Keys st mn mx).map List.length :=
  ⟨psCountLoop_eq_keysLoop pre (st.length + 1) (seekTo st pre),
   rsCountLoop_eq_keysLoop mx (st.length + 1) (seekTo st mn)⟩

/- C8 -/

/-- C8: Get of a key absent from the bucket yields the explicit not-found
result none, with no error, and that result is distinguishable from Get
of a key present with the empty value, which yields some []. -/
theorem get_absent_distinguished (st : Store) (k : Key)
    (h : ¬ k ∈ st.map Prod.fst) :
    Bucket.Get st k = none ∧
    Bucket.Get (Bucket.Put st k []) k = some [] ∧
    (none : Option Val) ≠ some [] :=
  ⟨engineGet_eq_none_of_not_mem h, engineGet_enginePut_self st k [],
   by decide⟩

/-- Witness for C8 at the one-item bucket {"B" -> "b"} and the absent
key "A". -/
theorem get_absent_distinguished_witness :
    Bucket.Get [([66], [98])] [65] = none ∧
    Bucket.Get (Bucket.Put [([66], [98])] [65] []) [65] = some [] ∧
    (none : Option Val) ≠ some [] :=
  get_absent_distinguished [([66], [98])] [65] (by decide)

/- C9 -/

/-- C9: DB.Delete fails with bucketNotFound when no bucket of the given
name exists, and when one exists it succeeds, removing that bucket
together with all its items. -/
theorem db_delete_missing_errors (db : DBState) (name : Key) :
    (lookupBucket db name = none →
      DB.Delete db name = Except.error DBErr.bucketNotFound) ∧
    (lookupBucket db name ≠ none →
      DB.Delete db name = Except.ok (removeBucket db name) ∧
      lookupBucket (removeBucket db name) name = none) := by
  constructor
  · intro h
    simp [DB.Delete, h]
  · intro h
    rcases hl : lookupBucket db name with _ | b
    · exact absurd hl h
    · exact ⟨by simp [DB.Delete, hl], lookupBucket_removeBucket db name⟩

/-- Witness for C9 on a database holding one bucket named [1]: deleting
the absent name [9] errors, deleting [1] succeeds and leaves no bucket of
that name. -/
theorem db_delete_missing_errors_witness :
    DB.Delete [([1], [([2], [3])])] [9] =
      Except.error DBErr.bucketNotFound ∧
    (DB.Delete [([1], [([2], [3])])] [1] =
        Except.ok (removeBucket [([1], [([2], [3])])] [1]) ∧
      lookupBucket (removeBucket [([1], [([2], [3])])] [1]) [1] = none) :=
  ⟨(db_delete_missing_errors [([1], [([2], [3])])] [9]).1 (by decide),
   (db_delete_missing_errors [([1], [([2], [3])])] [1]).2 (by decide)⟩

/- C10 -/

/-- C10: InsertNX probes absence only against the state committed before
the enclosing transaction: with key k absent beforehand, a batch holding
(k, v1) and then (k, v2) executes both puts, and the later value v2 is
the one stored. -/
theorem insertNX_probe_pretransaction (st : Store) (k : Key) (v1 v2 : Val)
    (h : Bucket.Get st k = none) :
    Bucket.InsertNX st [(k, v1), (k, v2)] =
      enginePut (enginePut st k v1) k v2 ∧
    Bucket.Get (Bucket.InsertNX st [(k, v1), (k, v2)]) k = some v2 := by
  have h' : engineGet st k = none := h
  have hfold : Bucket.InsertNX st [(k, v1), (k, v2)] =
      enginePut (enginePut st k v1) k v2 := by
    simp [Bucket.InsertNX, h']
  exact ⟨hfold, by rw [hfold]; exact engineGet_enginePut_self _ k v2⟩

/-- Witness for C10 at the bucket {"B" -> [5]} and the absent key "A"
with batch values [1] then [2]. -/
theorem insertNX_probe_pretransaction_witness :
    Bucket.InsertNX [([66], [5])] [([65], [1]), ([65], [2])] =
      enginePut (enginePut [([66], [5])] [65] [1]) [65] [2] ∧
    Bucket.Get (Bucket.InsertNX [([66], [5])] [([65], [1]), ([65], [2])])
      [65] = some [2] :=
  insertNX_probe_pretransaction [([66], [5])] [65] [1] [2] (by decide)
